import Mathlib

/-!
Verification of the bharat-rag ingestion/retrieval core against its
natural-language specification.  Each definition below is a shallow
embedding of a function of the repository (file and line references are
given in the doc comments); theorems settle the spec claims C1-C10.

Python strings are modelled as `List Char`; UUIDs as `Nat`; timestamps as
`Nat` (an abstract clock value passed in by the caller); JSON progress
dicts as an arbitrary type parameter, since the repository never inspects
their contents on the paths under verification.
-/

namespace BharatRag

/-! ### Definitions: shallow embeddings of the repository code -/

/-- Python `str` is modelled as a list of characters. -/
abbrev Str := List Char

/-- Job status vocabulary, from `domain/ingestion_job.py`:
`JobStatus = Literal["PENDING", "RUNNING", "COMPLETED", "FAILED", "PARTIAL", "CANCELED"]`.
The constructor `partialStatus` stands for the string `"PARTIAL"`. -/
inductive JobStatus where
  | pending
  | running
  | completed
  | failed
  | partialStatus
  | canceled
deriving DecidableEq, Repr

/-- Terminal job statuses per the state machine `PENDING -> RUNNING ->
\x7bCOMPLETED | PARTIAL | FAILED\x7d`. -/
def JobStatus.isTerminal : JobStatus → Bool
  | .completed => true
  | .failed => true
  | .partialStatus => true
  | _ => false

/-- The mutable columns of `IngestionJobModel` touched by
`IngestionJobRepository.update_status` (`db/models/ingestion_job.py`,
`services/repositories/ingestion_job_repository.py`).  `π` is the type of
the JSON `progress` dict, which the repository stores opaquely. -/
structure IngestionJobRow (π : Type) where
  status : JobStatus
  progress : π
  error_summary : Option Str
  started_at : Option Nat
  completed_at : Option Nat
deriving DecidableEq, Repr

/-- Function `IngestionJobRepository.update_status`
(`services/repositories/ingestion_job_repository.py`, lines 64-117).
`row` is the result of `session.get(IngestionJobModel, job_id)` (`none`
for an unknown id, which the code turns into a raised
`ValueError("Ingestion job not found")`); `now` is the value of
`datetime.now(timezone.utc)` at the call.  The Python guard
`if error_summary:` is truthiness: `None` and the empty string are both
skipped. -/
def updateStatus (now : Nat) (row : Option (IngestionJobRow π)) (status : JobStatus)
    (progress : Option π) (error_summary : Option Str) :
    Except Str (IngestionJobRow π) :=
  match row with
  | none => .error "Ingestion job not found".data
  | some obj =>
    let obj := { obj with status := status }
    let obj := if status = .running then { obj with started_at := some now } else obj
    let obj :=
      if status = .completed ∨ status = .failed ∨ status = .canceled then
        { obj with completed_at := some now }
      else obj
    let obj := match progress with
      | some p => { obj with progress := p }
      | none => obj
    let obj := match error_summary with
      | some e => if e ≠ [] then { obj with error_summary := some e } else obj
      | none => obj
    .ok obj

/-- Python `str.lstrip()` (no argument): drop leading whitespace. -/
def lstrip (s : Str) : Str := s.dropWhile Char.isWhitespace

/-- Drop trailing whitespace. -/
def rstrip (s : Str) : Str := (s.reverse.dropWhile Char.isWhitespace).reverse

/-- Python `str.strip()` (no argument): drop leading and trailing whitespace. -/
def strip (s : Str) : Str := rstrip (lstrip s)

/-- The `while start < len(t)` loop of `SimpleChunker.chunk` (lines 23-34).
Each iteration advances `start` by `step`; the constructor guarantees
`step = chunk_size - overlap >= 1`, so the loop runs at most `t.length`
iterations and a fuel of `t.length` makes this total function agree with
the unbounded Python loop. -/
def simpleChunkLoop (t : Str) (size step : Nat) : Nat → Nat → Nat → List (Nat × Str)
  | 0, _, _ => []
  | fuel + 1, start, idx =>
    if start < t.length then
      let part := strip ((t.drop start).take size)
      if part = [] then simpleChunkLoop t size step fuel (start + step) idx
      else (idx, part) :: simpleChunkLoop t size step fuel (start + step) (idx + 1)
    else []

/-- Method `SimpleChunker.chunk` (lines 18-35): strip the input, return the
sentinel `[(0, "")]` when nothing is left, otherwise slide a window of
`chunk_size` characters by `chunk_size - overlap`, strip each window and
keep the nonempty ones with consecutive indices. -/
def simpleChunk (size overlap : Nat) (text : Str) : List (Nat × Str) :=
  if strip text = [] then [(0, [])]
  else simpleChunkLoop (strip text) size (size - overlap) (strip text).length 0 0

/-- Characters `.` `!` `?` of the regex class `[.!?]`. -/
def isSentencePunct (c : Char) : Bool := c = '.' || c = '!' || c = '?'

/-- The regex class `[A-Z]`. -/
def isUpperAZ (c : Char) : Bool := 'A' ≤ c && c ≤ 'Z'

/-- Embedding of `re.split` with the pattern
`(?<=[.!?])\s+(?=[A-Z])|(?<=[.!?])\s*$` (`_split_into_sentences`,
line 149-152), as a left-to-right scan.  `acc` is the piece built so far
(in reverse), `prev` the previous character (for the lookbehind), `wsBuf`
the pending whitespace run that follows sentence punctuation (in
reverse): when an `[A-Z]` character ends such a run the run is a
separator and a piece is emitted; when any other character ends it the
run is ordinary text.  The `$` alternative only adds an empty trailing
piece (the inputs it receives are stripped), which the caller discards
while cleaning, so it is not emitted here. -/
def splitSentencesGo : (acc : Str) → (prev : Char) → (wsBuf : Option Str) → Str → List Str
  | acc, _, none, [] => [acc.reverse]
  | acc, _, some ws, [] => [(ws ++ acc).reverse]
  | acc, prev, none, c :: rest =>
    if isSentencePunct prev ∧ c.isWhitespace then
      splitSentencesGo acc prev (some [c]) rest
    else
      splitSentencesGo (c :: acc) c none rest
  | acc, prev, some ws, c :: rest =>
    if c.isWhitespace then
      splitSentencesGo acc prev (some (c :: ws)) rest
    else if isUpperAZ c then
      acc.reverse :: splitSentencesGo [c] c none rest
    else
      splitSentencesGo (c :: ws ++ acc) c none rest

/-- Embedding of the call collapsing whitespace runs to one space: collapse every whitespace run to one space
(line 160).  `prevWs` records whether the previous character was part of
a run already replaced. -/
def collapseWsGo (prevWs : Bool) : Str → Str
  | [] => []
  | c :: cs =>
    if c.isWhitespace then
      if prevWs then collapseWsGo true cs else ' ' :: collapseWsGo true cs
    else c :: collapseWsGo false cs

def collapseWs (s : Str) : Str := collapseWsGo false s

/-- Method `_split_into_sentences` (lines 131-167): regex split, then strip each
piece, drop empties, collapse inner whitespace; fall back to the whole
text when nothing remains. -/
def splitIntoSentences (t : Str) : List Str :=
  let pieces := splitSentencesGo [] ' ' none t
  let cleaned := pieces.filterMap fun p =>
    if strip p = [] then none else some (collapseWs (strip p))
  if cleaned = [] then [t] else cleaned

/-- Sum of `len(s) + 1` over a sentence list: the running length measure
`current_length` of `SentenceChunker.chunk` (one space separator is
counted per sentence, line 77). -/
def sentMeasure (l : List Str) : Nat := (l.map fun s => s.length + 1).sum

/-- Embedding of the space-join of a sentence list. -/
def joinSpace : List Str → Str
  | [] => []
  | [s] => s
  | s :: rest => s ++ ' ' :: joinSpace rest

/-- The backwards overlap scan of `SentenceChunker.chunk` (lines 89-99):
walk the just-closed chunk from its end, keeping sentences while their
combined measure stays within `overlap`; returns the kept sentences in
original order together with their measure. -/
def overlapSeedGo (overlap : Nat) : List Str → List Str → Nat → List Str × Nat
  | [], acc, n => (acc, n)
  | s :: rest, acc, n =>
    if n + (s.length + 1) ≤ overlap then
      overlapSeedGo overlap rest (s :: acc) (n + (s.length + 1))
    else (acc, n)

def overlapSeed (overlap : Nat) (cur : List Str) : List Str × Nat :=
  overlapSeedGo overlap cur.reverse [] 0

/-- The sentence-packing loop of `SentenceChunker.chunk` (lines 66-118):
strip each sentence, skip empties, close the running chunk when adding
the sentence would push `current_length` past `chunk_size`, seed the next
chunk with the overlap carry, and append the final chunk at the end. -/
def packGo (size overlap : Nat) :
    List Str → List (Nat × Str) → List Str → Nat → Nat → List (Nat × Str)
  | [], chunks, cur, _, idx =>
    if cur ≠ [] then
      if joinSpace cur ≠ [] then chunks ++ [(idx, joinSpace cur)] else chunks
    else chunks
  | s :: rest, chunks, cur, curLen, idx =>
    if strip s = [] then packGo size overlap rest chunks cur curLen idx
    else
      let t := strip s
      let sLen := t.length + 1
      if curLen + sLen > size ∧ cur ≠ [] then
        let chunks2 :=
          if joinSpace cur ≠ [] then chunks ++ [(idx, joinSpace cur)] else chunks
        let idx2 := if joinSpace cur ≠ [] then idx + 1 else idx
        let seed := overlapSeed overlap cur
        let cur2 := if seed.1 ≠ [] then seed.1 else []
        let len2 := if seed.1 ≠ [] then seed.2 else 0
        packGo size overlap rest chunks2 (cur2 ++ [t]) (len2 + sLen) idx2
      else
        packGo size overlap rest chunks (cur ++ [t]) (curLen + sLen) idx

/-- Method `SentenceChunker.chunk` (lines 38-129). -/
def sentenceChunk (size overlap : Nat) (text : Str) : List (Nat × Str) :=
  if strip text = [] then [(0, [])]
  else
    if splitIntoSentences (strip text) = [] then [(0, strip text)]
    else packGo size overlap (splitIntoSentences (strip text)) [] [] 0 0

/-- One extraction unit `(text, page_metadata)` as produced by a handler.
Of the metadata the unit loop reads only the truthiness of
`page_metadata.get("extraction_error")` and the value of
`page_metadata.get("page_number", page_idx + 1)`. -/
structure ExtractUnit where
  text : Str
  extractionError : Bool
  pageNumber : Option Nat
deriving DecidableEq, Repr

/-- A unit is counted as failed by the loop guard
`if not text and page_metadata.get("extraction_error")` (line 206). -/
def unitFailed (u : ExtractUnit) : Bool := u.text = [] && u.extractionError

/-- Outcome of `_process_with_handler`, tracking only the fields that the
final-status computation reads: the collected `(chunk_text, provenance)`
pairs (`all_chunks`, provenance is `(page_idx, chunk_index_in_page)`) and
`failed_pages`. -/
structure UnitAccum where
  allChunks : List (Str × Nat × Nat)
  failedPages : List Nat
deriving DecidableEq, Repr

/-- One iteration of the unit loop of `_process_with_handler`
(lines 183-226): a failed unit records its page number and contributes no
chunks; any other unit is chunked and the nonempty chunk texts are
appended with their enumerate index (`chunk_index_in_page`). -/
def unitStep (size ov : Nat) (pageIdx : Nat) (u : ExtractUnit) (acc : UnitAccum) :
    UnitAccum :=
  if unitFailed u then
    { acc with failedPages := acc.failedPages ++ [u.pageNumber.getD (pageIdx + 1)] }
  else
    { acc with allChunks := acc.allChunks ++
        ((simpleChunk size ov u.text).enum.filterMap fun pc =>
          if pc.2.2 ≠ [] then some (pc.2.2, pageIdx, pc.1) else none) }

/-- The whole unit loop, folding `unitStep` over the enumerated units. -/
def unitLoop (size ov : Nat) (units : List ExtractUnit) : UnitAccum :=
  (units.enum.foldl (fun acc p => unitStep size ov p.1 p.2 acc) ⟨[], []⟩)

/-- Status returned by `_process_with_handler` (it can only be
`"COMPLETED"` or `"PARTIAL"`; `"FAILED"` is never produced by this
function, only by the exception handler in `ingest`). -/
inductive HandlerStatus where
  | completed
  | partialStatus
deriving DecidableEq, Repr

/-- Result dict of `_process_with_handler` (lines 228-295), as far as
`ingest` consumes it. -/
structure HandlerResult where
  status : HandlerStatus
  failedPages : List Nat
  persistedChunks : List (Str × Nat × Nat)
deriving DecidableEq, Repr

/-- Method `_process_with_handler` after the unit loop (lines 228-295): with no
chunks, PARTIAL when pages failed and COMPLETED otherwise (nothing is
persisted); with chunks, they are embedded and bulk-persisted, and the
status is PARTIAL exactly when `failed_pages` is nonempty (then
`successful_chunks = len(all_chunks) > 0`). -/
def processWithHandler (size ov : Nat) (units : List ExtractUnit) : HandlerResult :=
  let acc := unitLoop size ov units
  if acc.allChunks = [] then
    if acc.failedPages ≠ [] then
      { status := .partialStatus, failedPages := acc.failedPages, persistedChunks := [] }
    else
      { status := .completed, failedPages := [], persistedChunks := [] }
  else
    if acc.failedPages ≠ [] ∧ acc.allChunks.length > 0 then
      { status := .partialStatus, failedPages := acc.failedPages,
        persistedChunks := acc.allChunks }
    else
      { status := .completed, failedPages := acc.failedPages,
        persistedChunks := acc.allChunks }

/-- The final job status assigned by `ingest` (lines 72-84) when no stage
raised: `"PARTIAL"` when the status of the handler result is `"PARTIAL"`,
otherwise `"COMPLETED"`.  (`"FAILED"` is assigned only in the `except`
branch, line 87.) -/
def ingestFinalStatus (size ov : Nat) (units : List ExtractUnit) : JobStatus :=
  if (processWithHandler size ov units).status = .partialStatus then .partialStatus
  else .completed

/-- The fields of `IngestionJobCreate` read by validation
(`domain/ingestion_job.py`).  `uri` is optional. -/
structure IngestionJobCreatePayload where
  collection_id : Nat
  source_type : Str
  format : Str
  uri : Option Str
deriving DecidableEq, Repr

/-- Python truthiness of `payload.uri`: falsy when `None` or `""`. -/
def uriFalsy (u : Option Str) : Bool :=
  match u with
  | none => true
  | some s => s = []

/-- Method `_validate_request` (lines 89-105): collection existence, then
`source_type`/`format` truthiness, then — for every source type — `uri`
truthiness.  `collections` is the set of existing collection ids consulted
through `collection_repo.get`. -/
def validateRequest (collections : List Nat) (p : IngestionJobCreatePayload) :
    Except Str Unit :=
  if ¬ collections.contains p.collection_id then
    .error ("collection_id not found".data)
  else if p.source_type = [] ∨ p.format = [] then
    .error ("Invalid ingestion payload".data)
  else if uriFalsy p.uri then
    .error ("uri is required for ingestion in current implementation".data)
  else .ok ()

/-- The prefix of `ingest` (lines 53-61) that decides whether a job row is
written: `_validate_request` runs first and raises before `repo.create`;
after it passes, the redundant collection check passes too (validation
already required the collection), and `repo.create` writes exactly one
row. -/
def ingestJobRowsCreated (collections : List Nat) (p : IngestionJobCreatePayload) :
    Nat :=
  match validateRequest collections p with
  | .error _ => 0
  | .ok _ => if collections.contains p.collection_id then 1 else 0

/-- A persisted chunk row as selected by `search_similar`. -/
structure ChunkRow where
  id : Nat
  document_id : Nat
  collection_id : Nat
  chunk_index : Nat
  text : Str
  embedding : List Rat
deriving DecidableEq, Repr

structure ChunkSearchResult where
  chunk : ChunkRow
  score : Rat
deriving DecidableEq, Repr

/-- Method `ChunkRepository.search_similar` (lines 67-146).  The SQL
`SELECT ... WHERE collection_id = :cid ORDER BY embedding <=> :qvec
LIMIT :k` over the table in insertion order, with
`top_k = max(1, min(top_k, 50))` and `score = 1 - distance`.  The pgvector
cosine-distance operator `<=>` is an external capability of the database,
passed in as the `dist` parameter; `rows` is the table content in storage
order. -/
def searchSimilar (dist : List Rat → List Rat → Rat) (rows : List ChunkRow)
    (cid : Nat) (qvec : List Rat) (topK : Int) : List ChunkSearchResult :=
  let k : Int := max 1 (min topK 50)
  let filtered := rows.filter fun r => r.collection_id = cid
  let sorted := filtered.mergeSort fun a b =>
    dist a.embedding qvec ≤ dist b.embedding qvec
  ((sorted.take k.toNat).map fun r => { chunk := r, score := 1 - dist r.embedding qvec })

/-- The embedder implementations of the repository: the deterministic
`SimpleHashEmbedder` (`services/embeddings/simple_hash_embedder.py`) and
the sentence-transformers `EmbeddingService`
(`services/embedding_service.py`). -/
inductive EmbedderImpl where
  | simpleHash
  | sentenceTransformer
deriving DecidableEq, Repr

/-- Field set by `IngestionService.__init__` (line 42):
`self.embedder = SimpleHashEmbedder()` — the embedder that produces every
stored chunk embedding. -/
def ingestionServiceEmbedder : EmbedderImpl := .simpleHash

/-- Field set by `RetrievalService.__init__` (line 15): `self.embedder =
EmbeddingService()  # Use semantic embeddings instead of hash-based` —
the embedder applied to query text. -/
def retrievalServiceEmbedder : EmbedderImpl := .sentenceTransformer

structure Citation where
  document_id : Nat
  chunk_id : Nat
  chunk_index : Nat
deriving DecidableEq, Repr

structure AnswerResponse where
  answer : Str
  citations : List Citation
  context : List Str
deriving DecidableEq, Repr

/-- The fixed reply of the empty-retrieval branch (line 53). -/
def noInfoAnswer : Str :=
  "I could not find any relevant information to answer your question.".data

/-- Endpoint `answer` (`api/answer.py`, lines 18-136) after retrieval: given the
retrieved chunks, either short-circuit on `if not results` (lines 44-56)
without touching the LLM, or build context/citations in retrieval order,
build the RAG prompt and call `llm.generate`.  `buildPrompt` stands for
`build_rag_prompt` and `generate` for `llm.generate` (external
collaborators); the returned Bool records whether `generate` was
invoked. -/
def answerFromResults (results : List ChunkSearchResult)
    (question : Str) (buildPrompt : Str → List Str → Str)
    (generate : Str → Str) : AnswerResponse × Bool :=
  if results = [] then
    ({ answer := noInfoAnswer, citations := [], context := [] }, false)
  else
    let context := results.map fun r => r.chunk.text
    let citations := results.map fun r =>
      { document_id := r.chunk.document_id, chunk_id := r.chunk.id,
        chunk_index := r.chunk.chunk_index : Citation }
    let prompt := buildPrompt question context
    ({ answer := generate prompt, citations := citations, context := context }, true)

/-! ### Theorems -/

/-- A non-whitespace character survives `dropWhile isWhitespace`. -/
theorem mem_dropWhile_of_not_ws {c : Char} :
    ∀ {l : Str}, c ∈ l → c.isWhitespace = false → c ∈ l.dropWhile Char.isWhitespace := by
  intro l
  induction l with
  | nil => intro h _; cases h
  | cons a as ih =>
    intro hmem hc
    by_cases ha : a.isWhitespace
    · rw [List.dropWhile_cons_of_pos ha]
      rcases List.mem_cons.mp hmem with rfl | h
      · rw [hc] at ha; cases ha
      · exact ih h hc
    · rwa [List.dropWhile_cons_of_neg ha]

theorem mem_strip_of_not_ws {c : Char} {s : Str} (hm : c ∈ s)
    (hc : c.isWhitespace = false) : c ∈ strip s := by
  have h1 : c ∈ lstrip s := mem_dropWhile_of_not_ws hm hc
  have h2 : c ∈ (lstrip s).reverse.dropWhile Char.isWhitespace :=
    mem_dropWhile_of_not_ws (List.mem_reverse.mpr h1) hc
  exact List.mem_reverse.mpr h2

theorem strip_ne_nil_of_mem {c : Char} {s : Str} (hm : c ∈ s)
    (hc : c.isWhitespace = false) : strip s ≠ [] := by
  intro h
  have hmem := mem_strip_of_not_ws hm hc
  rw [h] at hmem
  exact absurd hmem (List.not_mem_nil c)

theorem strip_eq_nil_iff (s : Str) : strip s = [] ↔ ∀ c ∈ s, c.isWhitespace := by
  constructor
  · intro h c hc
    by_contra hw
    exact strip_ne_nil_of_mem hc (Bool.not_eq_true _ ▸ eq_false_of_ne_true hw) h
  · intro h
    have : lstrip s = [] := List.dropWhile_eq_nil_iff.mpr fun c hc => h c hc
    simp [strip, this, rstrip]

/-- The head of a nonempty `lstrip` result is not whitespace. -/
theorem lstrip_head_not_ws {s : Str} {c : Char} {cs : Str}
    (h : lstrip s = c :: cs) : c.isWhitespace = false := by
  induction s with
  | nil => cases h
  | cons a as ih =>
    by_cases ha : a.isWhitespace
    · rw [lstrip, List.dropWhile_cons_of_pos ha] at h
      exact ih h
    · rw [lstrip, List.dropWhile_cons_of_neg ha] at h
      cases h
      exact eq_false_of_ne_true ha

/-- Lemma: `rstrip` only removes characters from the end: it only removes characters from the end. -/
theorem rstrip_append_eq (s : Str) : ∃ t, rstrip s ++ t = s := by
  obtain ⟨t, ht⟩ := (List.dropWhile_suffix (l := s.reverse) Char.isWhitespace)
  refine ⟨t.reverse, ?_⟩
  have : (s.reverse.dropWhile Char.isWhitespace).reverse ++ t.reverse =
      (t ++ s.reverse.dropWhile Char.isWhitespace).reverse := by
    rw [List.reverse_append]
  rw [rstrip, this, ht, List.reverse_reverse]

/-- The head of a nonempty `strip` result is not whitespace. -/
theorem strip_head_not_ws {s : Str} {c : Char} {cs : Str}
    (h : strip s = c :: cs) : c.isWhitespace = false := by
  obtain ⟨t, ht⟩ := rstrip_append_eq (lstrip s)
  rw [strip] at h
  rw [h] at ht
  exact lstrip_head_not_ws (s := s) ht.symm

theorem simpleChunkLoop_map_fst (t : Str) (size step : Nat) :
    ∀ fuel start idx, (simpleChunkLoop t size step fuel start idx).map Prod.fst =
      List.range' idx (simpleChunkLoop t size step fuel start idx).length := by
  intro fuel
  induction fuel with
  | zero => intro start idx; simp [simpleChunkLoop]
  | succ f ih =>
    intro start idx
    rw [simpleChunkLoop]
    by_cases h : start < t.length
    · simp only [if_pos h]
      by_cases hp : strip ((t.drop start).take size) = []
      · simp only [if_pos hp]; exact ih (start + step) idx
      · simp only [if_neg hp, List.map_cons, List.length_cons, List.range'_succ]
        rw [ih (start + step) (idx + 1)]
    · simp [if_neg h]

theorem simpleChunkLoop_text_ne_nil (t : Str) (size step : Nat) :
    ∀ fuel start idx, ∀ p ∈ simpleChunkLoop t size step fuel start idx, p.2 ≠ [] := by
  intro fuel
  induction fuel with
  | zero => intro start idx p hp; simp [simpleChunkLoop] at hp
  | succ f ih =>
    intro start idx p hp
    rw [simpleChunkLoop] at hp
    by_cases h : start < t.length
    · simp only [if_pos h] at hp
      by_cases hq : strip ((t.drop start).take size) = []
      · simp only [if_pos hq] at hp; exact ih (start + step) idx p hp
      · simp only [if_neg hq, List.mem_cons] at hp
        rcases hp with rfl | hp
        · exact hq
        · exact ih (start + step) (idx + 1) p hp
    · simp [if_neg h] at hp

theorem simpleChunk_ne_nil (size overlap : Nat) (hs : 0 < size) (text : Str) :
    simpleChunk size overlap text ≠ [] := by
  rw [simpleChunk]
  cases hcs : strip text with
  | nil => simp
  | cons c cs =>
    have hne : (c :: cs : Str) ≠ [] := by simp
    rw [if_neg hne, List.length_cons, simpleChunkLoop]
    have hpart : strip (((c :: cs).drop 0).take size) ≠ [] := by
      have hcmem : c ∈ ((c :: cs).drop 0).take size := by
        cases size with
        | zero => exact absurd hs (by simp)
        | succ n => simp
      exact strip_ne_nil_of_mem hcmem (strip_head_not_ws hcs)
    simp only [List.drop_zero] at hpart
    simp [hpart]

theorem joinSpace_length : ∀ {l : List Str}, l ≠ [] →
    (joinSpace l).length + 1 = sentMeasure l := by
  intro l
  induction l with
  | nil => intro h; exact absurd rfl h
  | cons s rest ih =>
    intro _
    cases rest with
    | nil => simp [joinSpace, sentMeasure]
    | cons y ys =>
      have h2 := ih (by simp)
      simp only [joinSpace, sentMeasure, List.map_cons, List.sum_cons,
        List.length_append, List.length_cons] at h2 ⊢
      omega

theorem joinSpace_ne_nil {l : List Str} (hl : l ≠ [])
    (he : ∀ x ∈ l, x ≠ []) : joinSpace l ≠ [] := by
  cases l with
  | nil => exact absurd rfl hl
  | cons s rest =>
    cases rest with
    | nil =>
      have := he s (by simp)
      simpa [joinSpace] using this
    | cons y ys => simp [joinSpace]

theorem collapseWsGo_mem {c : Char} (hc : c.isWhitespace = false) :
    ∀ (b : Bool) {s : Str}, c ∈ s → c ∈ collapseWsGo b s := by
  intro b s
  induction s generalizing b with
  | nil => intro h; cases h
  | cons a as ih =>
    intro hmem
    rw [collapseWsGo]
    by_cases ha : a.isWhitespace
    · have hca : c ≠ a := by intro h; rw [h, ha] at hc; cases hc
      have hmem2 : c ∈ as := by
        rcases List.mem_cons.mp hmem with h | h
        · exact absurd h hca
        · exact h
      rw [if_pos ha]
      cases b with
      | true => simpa using ih true hmem2
      | false => simpa using List.mem_cons_of_mem ' ' (ih true hmem2)
  -- non-whitespace head: kept verbatim
    · rw [if_neg ha]
      rcases List.mem_cons.mp hmem with rfl | h
      · exact List.mem_cons_self _ _
      · exact List.mem_cons_of_mem _ (ih false h)

theorem splitIntoSentences_ne_nil (t : Str) : splitIntoSentences t ≠ [] := by
  rw [splitIntoSentences]
  by_cases h : (splitSentencesGo [] ' ' none t).filterMap (fun p =>
      if strip p = [] then none else some (collapseWs (strip p))) = []
  · simp [h]
  · simp [h]

theorem splitIntoSentences_strip_ne_nil {t : Str}
    (ht : ∃ c ∈ t, c.isWhitespace = false) :
    ∀ s ∈ splitIntoSentences t, strip s ≠ [] := by
  intro s hs
  rw [splitIntoSentences] at hs
  by_cases h : (splitSentencesGo [] ' ' none t).filterMap (fun p =>
      if strip p = [] then none else some (collapseWs (strip p))) = []
  · simp only [h, if_pos rfl] at hs
    rcases List.mem_singleton.mp hs with rfl
    obtain ⟨c, hcm, hcw⟩ := ht
    exact strip_ne_nil_of_mem hcm hcw
  · simp only [if_neg h] at hs
    obtain ⟨q, _, hq⟩ := List.mem_filterMap.mp hs
    by_cases hq0 : strip q = []
    · rw [if_pos hq0] at hq; cases hq
    · rw [if_neg hq0] at hq
      obtain rfl := Option.some_inj.mp hq
      have : ∃ c ∈ q, c.isWhitespace = false := by
        by_contra hall
        push_neg at hall
        exact hq0 ((strip_eq_nil_iff q).mpr fun c hc => by
          have := hall c hc
          simpa using this)
      obtain ⟨c, hcm, hcw⟩ := this
      have h1 : c ∈ strip q := mem_strip_of_not_ws hcm hcw
      have h2 : c ∈ collapseWs (strip q) := collapseWsGo_mem hcw false h1
      exact strip_ne_nil_of_mem h2 hcw

theorem overlapSeedGo_mem {x : Str} (ov : Nat) :
    ∀ (l acc : List Str) (n : Nat), x ∈ (overlapSeedGo ov l acc n).1 →
      x ∈ l ∨ x ∈ acc := by
  intro l
  induction l with
  | nil => intro acc n h; exact Or.inr (by simpa [overlapSeedGo] using h)
  | cons s rest ih =>
    intro acc n h
    rw [overlapSeedGo] at h
    by_cases hg : n + (s.length + 1) ≤ ov
    · rw [if_pos hg] at h
      rcases ih _ _ h with h1 | h1
      · exact Or.inl (List.mem_cons_of_mem _ h1)
      · rcases List.mem_cons.mp h1 with rfl | h2
        · exact Or.inl (List.mem_cons_self _ _)
        · exact Or.inr h2
    · rw [if_neg hg] at h
      exact Or.inr h

theorem overlapSeed_mem {x : Str} {ov : Nat} {cur : List Str}
    (h : x ∈ (overlapSeed ov cur).1) : x ∈ cur := by
  rcases overlapSeedGo_mem ov cur.reverse [] 0 h with h1 | h1
  · exact List.mem_reverse.mp h1
  · cases h1

theorem overlapSeedGo_measure (ov : Nat) :
    ∀ (l acc : List Str) (n : Nat), n = sentMeasure acc → n ≤ ov →
      (overlapSeedGo ov l acc n).2 = sentMeasure (overlapSeedGo ov l acc n).1 ∧
      (overlapSeedGo ov l acc n).2 ≤ ov := by
  intro l
  induction l with
  | nil => intro acc n h1 h2; simp [overlapSeedGo]; exact ⟨h1, h2⟩
  | cons s rest ih =>
    intro acc n h1 h2
    rw [overlapSeedGo]
    by_cases hg : n + (s.length + 1) ≤ ov
    · rw [if_pos hg]
      exact ih (s :: acc) _ (by simp [sentMeasure] at h1 ⊢; omega) hg
    · rw [if_neg hg]
      exact ⟨h1, h2⟩

theorem overlapSeed_measure (ov : Nat) (cur : List Str) :
    (overlapSeed ov cur).2 = sentMeasure (overlapSeed ov cur).1 ∧
    (overlapSeed ov cur).2 ≤ ov :=
  overlapSeedGo_measure ov cur.reverse [] 0 (by simp [sentMeasure]) (Nat.zero_le ov)

theorem packGo_map_fst (size ov : Nat) :
    ∀ (rest : List Str) (chunks : List (Nat × Str)) (cur : List Str)
      (curLen idx : Nat),
      chunks.map Prod.fst = List.range' 0 chunks.length → idx = chunks.length →
      (packGo size ov rest chunks cur curLen idx).map Prod.fst =
        List.range' 0 (packGo size ov rest chunks cur curLen idx).length := by
  intro rest
  induction rest with
  | nil =>
    intro chunks cur curLen idx h1 h2
    simp only [packGo]
    by_cases hc : cur ≠ []
    · rw [if_pos hc]
      by_cases hj : joinSpace cur ≠ []
      · rw [if_pos hj]
        simp only [List.map_append, List.length_append, List.map_cons,
          List.map_nil, List.length_cons, List.length_nil]
        rw [h1, h2, List.range'_concat]
        simp
      · rw [if_neg hj]; rw [h1]
    · rw [if_neg hc]; rw [h1]
  | cons s rest2 ih =>
    intro chunks cur curLen idx h1 h2
    simp only [packGo]
    by_cases hs : strip s = []
    · rw [if_pos hs]; exact ih chunks cur curLen idx h1 h2
    · rw [if_neg hs]
      by_cases hg : curLen + ((strip s).length + 1) > size ∧ cur ≠ []
      · simp only [if_pos hg]
        by_cases hj : joinSpace cur ≠ []
        · simp only [if_pos hj]
          refine ih _ _ _ _ ?_ ?_
          · simp only [List.map_append, List.length_append, List.map_cons,
              List.map_nil, List.length_cons, List.length_nil]
            rw [h1, h2, List.range'_concat]
            simp
          · simp [h2]
        · simp only [if_neg hj]
          exact ih _ _ _ _ h1 h2
      · simp only [if_neg hg]
        exact ih _ _ _ _ h1 h2

theorem packGo_text_ne_nil (size ov : Nat) :
    ∀ (rest : List Str) (chunks : List (Nat × Str)) (cur : List Str)
      (curLen idx : Nat),
      (∀ p ∈ chunks, p.2 ≠ []) →
      ∀ p ∈ packGo size ov rest chunks cur curLen idx, p.2 ≠ [] := by
  intro rest
  induction rest with
  | nil =>
    intro chunks cur curLen idx h1 p hp
    simp only [packGo] at hp
    by_cases hc : cur ≠ []
    · rw [if_pos hc] at hp
      by_cases hj : joinSpace cur ≠ []
      · rw [if_pos hj] at hp
        rcases List.mem_append.mp hp with h | h
        · exact h1 p h
        · rcases List.mem_singleton.mp h with rfl
          exact hj
      · rw [if_neg hj] at hp; exact h1 p hp
    · rw [if_neg hc] at hp; exact h1 p hp
  | cons s rest2 ih =>
    intro chunks cur curLen idx h1 p hp
    simp only [packGo] at hp
    by_cases hs : strip s = []
    · rw [if_pos hs] at hp; exact ih chunks cur curLen idx h1 p hp
    · rw [if_neg hs] at hp
      by_cases hg : curLen + ((strip s).length + 1) > size ∧ cur ≠ []
      · simp only [if_pos hg] at hp
        by_cases hj : joinSpace cur ≠ []
        · simp only [if_pos hj] at hp
          refine ih _ _ _ _ ?_ p hp
          intro q hq
          rcases List.mem_append.mp hq with h | h
          · exact h1 q h
          · rcases List.mem_singleton.mp h with rfl
            exact hj
        · simp only [if_neg hj] at hp
          exact ih _ _ _ _ h1 p hp
      · simp only [if_neg hg] at hp
        exact ih _ _ _ _ h1 p hp

theorem packGo_ne_nil (size ov : Nat) :
    ∀ (rest : List Str) (chunks : List (Nat × Str)) (cur : List Str)
      (curLen idx : Nat),
      (∀ x ∈ cur, x ≠ []) →
      (cur ≠ [] ∨ ∃ s ∈ rest, strip s ≠ []) →
      packGo size ov rest chunks cur curLen idx ≠ [] := by
  intro rest
  induction rest with
  | nil =>
    intro chunks cur curLen idx he hw
    have hc : cur ≠ [] := by
      rcases hw with h | ⟨s, hs, _⟩
      · exact h
      · cases hs
    simp only [packGo]
    rw [if_pos hc, if_pos (joinSpace_ne_nil hc he)]
    simp
  | cons s rest2 ih =>
    intro chunks cur curLen idx he hw
    simp only [packGo]
    by_cases hs : strip s = []
    · rw [if_pos hs]
      refine ih chunks cur curLen idx he ?_
      rcases hw with h | ⟨q, hq, hq2⟩
      · exact Or.inl h
      · rcases List.mem_cons.mp hq with rfl | hq3
        · exact absurd hs hq2
        · exact Or.inr ⟨q, hq3, hq2⟩
    · rw [if_neg hs]
      by_cases hg : curLen + ((strip s).length + 1) > size ∧ cur ≠ []
      · simp only [if_pos hg]
        by_cases hj : joinSpace cur ≠ []
        · simp only [if_pos hj]
          refine ih _ _ _ _ ?_ (Or.inl (by simp))
          intro x hx
          rcases List.mem_append.mp hx with h | h
          · by_cases hseed : (overlapSeed ov cur).1 ≠ []
            · rw [if_pos hseed] at h
              exact he x (overlapSeed_mem h)
            · rw [if_neg hseed] at h; cases h
          · rcases List.mem_singleton.mp h with rfl
            exact hs
        · simp only [if_neg hj]
          refine ih _ _ _ _ ?_ (Or.inl (by simp))
          intro x hx
          rcases List.mem_append.mp hx with h | h
          · by_cases hseed : (overlapSeed ov cur).1 ≠ []
            · rw [if_pos hseed] at h
              exact he x (overlapSeed_mem h)
            · rw [if_neg hseed] at h; cases h
          · rcases List.mem_singleton.mp h with rfl
            exact hs
      · simp only [if_neg hg]
        refine ih _ _ _ _ ?_ (Or.inl (by simp))
        intro x hx
        rcases List.mem_append.mp hx with h | h
        · exact he x h
        · rcases List.mem_singleton.mp h with rfl
          exact hs

theorem sentMeasure_append (a b : List Str) :
    sentMeasure (a ++ b) = sentMeasure a + sentMeasure b := by
  simp [sentMeasure]

/-- Every chunk the packing loop emits keeps the running measure
(`current_length`, one space counted per sentence) within `chunk_size`,
provided every remaining sentence fits within `chunk_size - overlap`. -/
theorem packGo_bound (size ov : Nat) (hov : ov < size) :
    ∀ (rest : List Str) (chunks : List (Nat × Str)) (cur : List Str)
      (curLen idx : Nat),
      (∀ s ∈ rest, (strip s).length + 1 ≤ size - ov) →
      (∀ p ∈ chunks, p.2.length + 1 ≤ size) →
      curLen = sentMeasure cur →
      curLen ≤ size →
      (cur = [] → curLen = 0) →
      ∀ p ∈ packGo size ov rest chunks cur curLen idx, p.2.length + 1 ≤ size := by
  intro rest
  induction rest with
  | nil =>
    intro chunks cur curLen idx _ hchunks hmeas hbound _ p hp
    simp only [packGo] at hp
    by_cases hc : cur ≠ []
    · rw [if_pos hc] at hp
      by_cases hj : joinSpace cur ≠ []
      · rw [if_pos hj] at hp
        rcases List.mem_append.mp hp with h | h
        · exact hchunks p h
        · rcases List.mem_singleton.mp h with rfl
          have := joinSpace_length hc
          simp only []
          omega
      · rw [if_neg hj] at hp; exact hchunks p hp
    · rw [if_neg hc] at hp; exact hchunks p hp
  | cons s rest2 ih =>
    intro chunks cur curLen idx hrest hchunks hmeas hbound hnil p hp
    simp only [packGo] at hp
    have hrest2 : ∀ q ∈ rest2, (strip q).length + 1 ≤ size - ov := fun q hq =>
      hrest q (List.mem_cons_of_mem _ hq)
    have hsfit : (strip s).length + 1 ≤ size - ov := hrest s (List.mem_cons_self _ _)
    by_cases hs : strip s = []
    · rw [if_pos hs] at hp
      exact ih chunks cur curLen idx hrest2 hchunks hmeas hbound hnil p hp
    · rw [if_neg hs] at hp
      by_cases hg : curLen + ((strip s).length + 1) > size ∧ cur ≠ []
      · simp only [if_pos hg] at hp
        have hseedm := overlapSeed_measure ov cur
        -- invariants for the re-seeded chunk
        have hm2 : (if (overlapSeed ov cur).1 ≠ [] then (overlapSeed ov cur).2 else 0) +
            ((strip s).length + 1) =
            sentMeasure ((if (overlapSeed ov cur).1 ≠ [] then (overlapSeed ov cur).1
              else []) ++ [strip s]) := by
          by_cases hseed : (overlapSeed ov cur).1 ≠ []
          · rw [if_pos hseed, if_pos hseed, sentMeasure_append]
            simp [sentMeasure, hseedm.1]
          · rw [if_neg hseed, if_neg hseed]
            simp [sentMeasure]
        have hb2 : (if (overlapSeed ov cur).1 ≠ [] then (overlapSeed ov cur).2 else 0) +
            ((strip s).length + 1) ≤ size := by
          by_cases hseed : (overlapSeed ov cur).1 ≠ []
          · rw [if_pos hseed]
            have := hseedm.2
            omega
          · rw [if_neg hseed]
            omega
        by_cases hj : joinSpace cur ≠ []
        · simp only [if_pos hj] at hp
          refine ih _ _ _ _ hrest2 ?_ hm2 hb2 (by simp) p hp
          intro q hq
          rcases List.mem_append.mp hq with h | h
          · exact hchunks q h
          · rcases List.mem_singleton.mp h with rfl
            have := joinSpace_length hg.2
            simp only []
            omega
        · simp only [if_neg hj] at hp
          exact ih _ _ _ _ hrest2 hchunks hm2 hb2 (by simp) p hp
      · simp only [if_neg hg] at hp
        have hm2 : curLen + ((strip s).length + 1) = sentMeasure (cur ++ [strip s]) := by
          rw [sentMeasure_append, hmeas]
          simp [sentMeasure]
        have hb2 : curLen + ((strip s).length + 1) ≤ size := by
          rcases Classical.em (cur = []) with hce | hce
          · have := hnil hce
            omega
          · have : ¬ curLen + ((strip s).length + 1) > size := fun hgt => hg ⟨hgt, hce⟩
            omega
        exact ih _ _ _ _ hrest2 hchunks hm2 hb2 (by simp) p hp

theorem sentenceChunk_ne_nil (size ov : Nat) (text : Str) :
    sentenceChunk size ov text ≠ [] := by
  rw [sentenceChunk]
  by_cases ht : strip text = []
  · simp [ht]
  · rw [if_neg ht]
    rw [if_neg (splitIntoSentences_ne_nil (strip text))]
    obtain ⟨c, cs, hcs⟩ : ∃ c cs, strip text = c :: cs := by
      cases h : strip text with
      | nil => exact absurd h ht
      | cons c cs => exact ⟨c, cs, rfl⟩
    have hex : ∃ c2 ∈ strip text, c2.isWhitespace = false :=
      ⟨c, by rw [hcs]; exact List.mem_cons_self _ _, strip_head_not_ws hcs⟩
    obtain ⟨s0, hs0⟩ : ∃ s0, s0 ∈ splitIntoSentences (strip text) :=
      List.exists_mem_of_ne_nil _ (splitIntoSentences_ne_nil (strip text))
    exact packGo_ne_nil size ov _ [] [] 0 0 (by intro x hx; cases hx)
      (Or.inr ⟨s0, hs0, splitIntoSentences_strip_ne_nil hex s0 hs0⟩)

theorem sentenceChunk_map_fst (size ov : Nat) (text : Str) :
    (sentenceChunk size ov text).map Prod.fst =
      List.range (sentenceChunk size ov text).length := by
  rw [sentenceChunk]
  by_cases ht : strip text = []
  · rw [if_pos ht]; rfl
  · rw [if_neg ht, if_neg (splitIntoSentences_ne_nil (strip text))]
    rw [List.range_eq_range']
    exact packGo_map_fst size ov _ [] [] 0 0 (by simp) (by simp)

theorem sentenceChunk_text_ne_nil (size ov : Nat) (text : Str)
    (ht : strip text ≠ []) :
    ∀ p ∈ sentenceChunk size ov text, p.2 ≠ [] := by
  rw [sentenceChunk, if_neg ht, if_neg (splitIntoSentences_ne_nil (strip text))]
  exact packGo_text_ne_nil size ov _ [] [] 0 0 (by intro q hq; cases hq)

theorem simpleChunk_map_fst (size ov : Nat) (text : Str) :
    (simpleChunk size ov text).map Prod.fst =
      List.range (simpleChunk size ov text).length := by
  rw [simpleChunk]
  by_cases ht : strip text = []
  · rw [if_pos ht]; rfl
  · rw [if_neg ht, List.range_eq_range']
    exact simpleChunkLoop_map_fst (strip text) size (size - ov) _ 0 0

theorem simpleChunk_text_ne_nil (size ov : Nat) (text : Str)
    (ht : strip text ≠ []) :
    ∀ p ∈ simpleChunk size ov text, p.2 ≠ [] := by
  rw [simpleChunk, if_neg ht]
  exact simpleChunkLoop_text_ne_nil (strip text) size (size - ov) _ 0 0

/-- The bound of claim C9 at the `chunk` entry point. -/
theorem sentenceChunk_bound (size ov : Nat) (hs : 0 < size) (hov : ov < size)
    (text : Str)
    (hsent : ∀ s ∈ splitIntoSentences (strip text), (strip s).length + 1 ≤ size - ov) :
    ∀ p ∈ sentenceChunk size ov text, p.2.length + 1 ≤ size := by
  intro p hp
  rw [sentenceChunk] at hp
  by_cases ht : strip text = []
  · rw [if_pos ht] at hp
    rcases List.mem_singleton.mp hp with rfl
    simpa using hs
  · rw [if_neg ht, if_neg (splitIntoSentences_ne_nil (strip text))] at hp
    exact packGo_bound size ov hov _ [] [] 0 0 hsent (by intro q hq; cases hq)
      (by simp [sentMeasure]) (Nat.zero_le size) (fun _ => rfl) p hp

/-- Full characterization of a successful `update_status` call: every
field of the returned row, as the code computes it.  Note `"PARTIAL"` is
absent from the `completed_at` condition (line 92 lists only
`("COMPLETED", "FAILED", "CANCELED")`), and no branch consults the
previous status. -/
theorem updateStatus_some {π : Type} (j : IngestionJobRow π) (now : Nat)
    (s : JobStatus) (p : Option π) (e : Option Str) :
    updateStatus now (some j) s p e = .ok {
      status := s
      progress := p.getD j.progress
      error_summary := match e with
        | some ev => if ev ≠ [] then some ev else j.error_summary
        | none => j.error_summary
      started_at := if s = .running then some now else j.started_at
      completed_at := if s = .completed ∨ s = .failed ∨ s = .canceled then some now
        else j.completed_at } := by
  rcases p with _ | pv <;> rcases e with _ | ev <;>
    simp only [updateStatus, Option.getD] <;> split_ifs <;> rfl

theorem forall_mem_enum_snd {α : Type} {P : α → Prop} (l : List α) :
    (∀ p ∈ l.enum, P p.2) ↔ ∀ u ∈ l, P u := by
  constructor
  · intro h u hu
    have hm : u ∈ l.enum.map Prod.snd := by
      rw [List.enum_eq_enumFrom, List.enumFrom_map_snd]
      exact hu
    obtain ⟨p, hp, hpu⟩ := List.mem_map.mp hm
    exact hpu ▸ h p hp
  · intro h p hp
    have hm : p.2 ∈ l.enum.map Prod.snd := List.mem_map_of_mem _ hp
    rw [List.enum_eq_enumFrom, List.enumFrom_map_snd] at hm
    exact h p.2 hm

/-- The fold of `unitStep` records a failed page if and only if some
processed unit failed. -/
theorem unitFold_failedPages_eq_nil (size ov : Nat) :
    ∀ (l : List (Nat × ExtractUnit)) (acc : UnitAccum),
      (l.foldl (fun a p => unitStep size ov p.1 p.2 a) acc).failedPages = [] ↔
      (acc.failedPages = [] ∧ ∀ p ∈ l, unitFailed p.2 = false) := by
  intro l
  induction l with
  | nil => intro acc; simp
  | cons q l2 ih =>
    intro acc
    rw [List.foldl_cons, ih]
    by_cases hf : unitFailed q.2
    · simp only [unitStep, if_pos hf]
      constructor
      · rintro ⟨h1, _⟩
        exact absurd h1 (by simp)
      · rintro ⟨_, hall⟩
        have := hall q (List.mem_cons_self _ _)
        rw [hf] at this
        cases this
    · simp only [unitStep, if_neg hf]
      constructor
      · rintro ⟨h1, h2⟩
        refine ⟨h1, ?_⟩
        intro p hp
        rcases List.mem_cons.mp hp with rfl | hp2
        · exact eq_false_of_ne_true hf
        · exact h2 p hp2
      · rintro ⟨h1, h2⟩
        exact ⟨h1, fun p hp => h2 p (List.mem_cons_of_mem _ hp)⟩

theorem unitLoop_failedPages_eq_nil (size ov : Nat) (units : List ExtractUnit) :
    (unitLoop size ov units).failedPages = [] ↔
      ∀ u ∈ units, unitFailed u = false := by
  rw [unitLoop, unitFold_failedPages_eq_nil]
  rw [forall_mem_enum_snd units (P := fun u => unitFailed u = false)]
  simp

/-- The handler result is `"PARTIAL"` exactly when `failed_pages` is
nonempty, `"COMPLETED"` otherwise, regardless of how many chunks were
collected. -/
theorem processWithHandler_status (size ov : Nat) (units : List ExtractUnit) :
    (processWithHandler size ov units).status =
      (if (unitLoop size ov units).failedPages = [] then .completed
       else .partialStatus) := by
  rw [processWithHandler]
  by_cases hchunks : (unitLoop size ov units).allChunks = []
  · rw [if_pos hchunks]
    by_cases hfail : (unitLoop size ov units).failedPages = []
    · rw [if_neg (by simpa using hfail), if_pos hfail]
    · rw [if_pos hfail, if_neg hfail]
  · rw [if_neg hchunks]
    by_cases hfail : (unitLoop size ov units).failedPages = []
    · rw [if_neg (by intro h; exact h.1 hfail), if_pos hfail]
    · rw [if_pos ⟨hfail, List.length_pos.mpr hchunks⟩, if_neg hfail]

theorem ingestFinalStatus_eq (size ov : Nat) (units : List ExtractUnit) :
    ingestFinalStatus size ov units =
      (if (unitLoop size ov units).failedPages = [] then .completed
       else .partialStatus) := by
  rw [ingestFinalStatus, processWithHandler_status]
  by_cases h : (unitLoop size ov units).failedPages = [] <;> simp [h]

/-- The final status of an ingestion run that raised nowhere:
`"COMPLETED"` exactly when no unit failed, `"PARTIAL"` exactly when some
unit failed, and `"FAILED"` never. -/
theorem ingestFinalStatus_characterization (size ov : Nat)
    (units : List ExtractUnit) :
    (ingestFinalStatus size ov units = .completed ↔
      ∀ u ∈ units, unitFailed u = false) ∧
    (ingestFinalStatus size ov units = .partialStatus ↔
      ¬ ∀ u ∈ units, unitFailed u = false) := by
  have hiff := unitLoop_failedPages_eq_nil size ov units
  rw [ingestFinalStatus_eq]
  by_cases h : (unitLoop size ov units).failedPages = []
  · rw [if_pos h]
    constructor
    · exact ⟨fun _ => hiff.mp h, fun _ => rfl⟩
    · constructor
      · intro hx; cases hx
      · intro hx; exact absurd (hiff.mp h) hx
  · rw [if_neg h]
    constructor
    · constructor
      · intro hx; cases hx
      · intro hx; exact absurd (hiff.mpr hx) h
    · exact ⟨fun _ hx => h (hiff.mpr hx), fun _ => rfl⟩

/-- A unit with empty text and no extraction error is a no-op for the
accumulator: it is not counted as failed, and chunking its empty text
yields only the sentinel `(0, "")`, which the `if chunk_text:` guard
drops. -/
theorem unitStep_empty_unit (size ov : Nat) (pageIdx : Nat) (u : ExtractUnit)
    (acc : UnitAccum) (htext : u.text = []) (herr : u.extractionError = false) :
    unitStep size ov pageIdx u acc = acc := by
  have hf : unitFailed u = false := by simp [unitFailed, herr]
  rw [unitStep, if_neg (by rw [hf]; exact Bool.false_ne_true)]
  rw [htext]
  have hstrip : strip ([] : Str) = [] := rfl
  have hchunk : simpleChunk size ov [] = [(0, [])] := by
    rw [simpleChunk, if_pos hstrip]
  rw [hchunk]
  simp [List.enum]

theorem unitLoop_all_empty (size ov : Nat) (units : List ExtractUnit)
    (h : ∀ u ∈ units, u.text = [] ∧ u.extractionError = false) :
    unitLoop size ov units = ⟨[], []⟩ := by
  rw [unitLoop]
  have h2 : ∀ p ∈ units.enum, p.2.text = [] ∧ p.2.extractionError = false :=
    (forall_mem_enum_snd units
      (P := fun u => u.text = [] ∧ u.extractionError = false)).mpr h
  revert h2
  generalize units.enum = l
  intro h2
  induction l with
  | nil => rfl
  | cons q l2 ih =>
    rw [List.foldl_cons]
    have hq := h2 q (List.mem_cons_self _ _)
    rw [unitStep_empty_unit size ov q.1 q.2 _ hq.1 hq.2]
    exact ih fun p hp => h2 p (List.mem_cons_of_mem _ hp)

/-- Lemma: `_validate_request` passes exactly when the collection exists, both
`source_type` and `format` are truthy, and `uri` is truthy — the `uri`
requirement applies to every `source_type`. -/
theorem validateRequest_isOk_iff (collections : List Nat)
    (p : IngestionJobCreatePayload) :
    (validateRequest collections p).isOk = true ↔
      (collections.contains p.collection_id = true ∧ p.source_type ≠ [] ∧
       p.format ≠ [] ∧ uriFalsy p.uri = false) := by
  rw [validateRequest]
  by_cases h1 : collections.contains p.collection_id = true
  · rw [if_neg (not_not_intro h1)]
    by_cases h2 : p.source_type = [] ∨ p.format = []
    · rw [if_pos h2]
      simp only [Except.isOk, Except.toBool]
      constructor
      · intro h; cases h
      · rintro ⟨_, hs, hf, _⟩
        rcases h2 with h2 | h2
        · exact absurd h2 hs
        · exact absurd h2 hf
    · rw [if_neg h2]
      push_neg at h2
      by_cases h3 : uriFalsy p.uri = true
      · rw [if_pos h3]
        simp only [Except.isOk, Except.toBool]
        constructor
        · intro h; cases h
        · rintro ⟨_, _, _, hu⟩
          rw [h3] at hu; cases hu
      · rw [if_neg h3]
        simp only [Except.isOk, Except.toBool]
        constructor
        · intro _
          exact ⟨h1, h2.1, h2.2, eq_false_of_ne_true h3⟩
        · intro _
          trivial
  · rw [if_pos (by simpa using h1)]
    simp only [Except.isOk, Except.toBool]
    constructor
    · intro h; cases h
    · rintro ⟨hc, _, _, _⟩
      exact absurd hc h1

/-- Validation failure writes no job row; validation success writes
exactly one. -/
theorem ingestJobRowsCreated_eq (collections : List Nat)
    (p : IngestionJobCreatePayload) :
    ((validateRequest collections p).isOk = false →
      ingestJobRowsCreated collections p = 0) ∧
    ((validateRequest collections p).isOk = true →
      ingestJobRowsCreated collections p = 1) := by
  constructor
  · intro h
    rw [ingestJobRowsCreated]
    cases hv : validateRequest collections p with
    | error e => rfl
    | ok v =>
      rw [hv] at h
      simp [Except.isOk, Except.toBool] at h
  · intro h
    have hc := ((validateRequest_isOk_iff collections p).mp h).1
    rw [ingestJobRowsCreated]
    cases hv : validateRequest collections p with
    | error e =>
      rw [hv] at h
      simp [Except.isOk, Except.toBool] at h
    | ok v => rw [if_pos hc]

/-- Tenancy isolation: every row returned by `search_similar` carries the
queried collection id — the `WHERE collection_id = :cid` filter runs
before ordering and `LIMIT`. -/
theorem searchSimilar_tenancy (dist : List Rat → List Rat → Rat)
    (rows : List ChunkRow) (cid : Nat) (qvec : List Rat) (topK : Int) :
    ∀ r ∈ searchSimilar dist rows cid qvec topK, r.chunk.collection_id = cid := by
  intro r hr
  simp only [searchSimilar] at hr
  obtain ⟨q, hq, rfl⟩ := List.mem_map.mp hr
  have hq2 := List.mem_of_mem_take hq
  rw [List.mem_mergeSort] at hq2
  have := List.mem_filter.mp hq2
  simpa using this.2

/-- C1 counterexample: the claim that `update_status` is rejected or a
no-op on a terminal job is false — on a COMPLETED job a further call
succeeds and changes the status (and `started_at`): there is no terminal
guard in the code. -/
theorem C1_counterexample :
    (JobStatus.completed.isTerminal = true) ∧
    updateStatus (π := Nat) 9 (some ⟨.completed, 0, none, some 1, some 2⟩)
        .running none none =
      .ok ⟨.running, 0, none, some 9, some 2⟩ ∧
    (⟨.running, 0, none, some 9, some 2⟩ : IngestionJobRow Nat) ≠
      ⟨.completed, 0, none, some 1, some 2⟩ :=
  ⟨by decide, rfl, by decide⟩

/-- C1 (amended): once a job is terminal, a further `update_status` call
is neither rejected nor a no-op — it succeeds and the stored status
becomes the requested status; the repository enforces no terminal guard
and only an unknown job id is rejected. -/
theorem C1_theorem {π : Type} (j : IngestionJobRow π)
    (_hT : j.status.isTerminal = true) (now : Nat) (s2 : JobStatus)
    (p : Option π) (e : Option Str) :
    (updateStatus now (some j) s2 p e).map IngestionJobRow.status = .ok s2 := by
  rw [updateStatus_some]
  rfl

/-- C1 witness: the amended theorem applied to a concrete COMPLETED job
updated to RUNNING. -/
theorem C1_witness :
    (JobStatus.completed.isTerminal = true) ∧
    (updateStatus (π := Nat) 9 (some ⟨.completed, 0, none, some 1, some 2⟩)
        .running none none).map IngestionJobRow.status = .ok .running :=
  ⟨by decide,
   C1_theorem ⟨.completed, 0, none, some 1, some 2⟩ (by decide) 9 .running none none⟩

/-- C2 counterexample: a run whose single extraction unit fails ends
PARTIAL, not FAILED — the clause saying FAILED when every unit failed is
false on the code (`_process_with_handler` returns `"PARTIAL"` whenever
`failed_pages` is nonempty, even when every unit failed). -/
theorem C2_counterexample :
    unitFailed ⟨[], true, some 1⟩ = true ∧
    ingestFinalStatus 800 120 [⟨[], true, some 1⟩] = .partialStatus ∧
    JobStatus.partialStatus ≠ .failed := by
  refine ⟨by decide, by decide, by decide⟩

/-- C2 (amended): in a run where no stage raised, the final status is
COMPLETED iff no extraction unit failed (including zero chunks from empty
input), PARTIAL iff at least one unit failed — whether or not any chunk
survived, so in particular PARTIAL (not FAILED) when every unit failed —
and never FAILED. -/
theorem C2_theorem (size ov : Nat) (units : List ExtractUnit) :
    (ingestFinalStatus size ov units = .completed ↔
      ∀ u ∈ units, unitFailed u = false) ∧
    (ingestFinalStatus size ov units = .partialStatus ↔
      ¬ ∀ u ∈ units, unitFailed u = false) ∧
    ingestFinalStatus size ov units ≠ .failed := by
  refine ⟨(ingestFinalStatus_characterization size ov units).1,
          (ingestFinalStatus_characterization size ov units).2, ?_⟩
  rw [ingestFinalStatus_eq]
  by_cases h : (unitLoop size ov units).failedPages = [] <;> simp [h]

/-- C2 witness: the amended theorem applied to a unit list with no
failures gives COMPLETED, and to an all-failed list gives PARTIAL. -/
theorem C2_witness :
    ingestFinalStatus 800 120 [⟨"Hi".data, false, none⟩] = .completed ∧
    ingestFinalStatus 800 120 [⟨[], true, some 1⟩] = .partialStatus :=
  ⟨(C2_theorem 800 120 [⟨"Hi".data, false, none⟩]).1.mpr (by decide),
   (C2_theorem 800 120 [⟨[], true, some 1⟩]).2.1.mpr (by decide)⟩

/-- C3 counterexample: the query-time embedder and the ingestion-time
embedder are not the same function — `RetrievalService` constructs the
sentence-transformers `EmbeddingService` while `IngestionService`
constructs `SimpleHashEmbedder`. -/
theorem C3_counterexample : retrievalServiceEmbedder ≠ ingestionServiceEmbedder := by
  decide

/-- C3 (amended): `RetrievalEngine.query` embeds the query with the
semantic `EmbeddingService`, a different embedding function from the
`SimpleHashEmbedder` that the ingestion pipeline used to embed the stored
chunks. -/
theorem C3_theorem :
    ingestionServiceEmbedder = EmbedderImpl.simpleHash ∧
    retrievalServiceEmbedder = EmbedderImpl.sentenceTransformer ∧
    retrievalServiceEmbedder ≠ ingestionServiceEmbedder := by
  decide

/-- C4 counterexample: a request with an existing collection, nonempty
source_type "file" (≠ "url") and format, and no uri is claimed to pass
validation, but `_validate_request` rejects it — the uri requirement is
enforced for every source type. -/
theorem C4_counterexample :
    ("file".data ≠ "url".data) ∧
    (List.contains [7] 7 = true) ∧
    ¬ ((validateRequest [7] ⟨7, "file".data, "txt".data, none⟩).isOk = true) ∧
    validateRequest [7] ⟨7, "file".data, "txt".data, none⟩ =
      .error "uri is required for ingestion in current implementation".data := by
  refine ⟨by decide, by decide, by decide, rfl⟩

/-- C4 (amended): validation fails iff the collection does not exist,
source_type or format is empty, or uri is missing/empty — for every
source type, not only "url" — and it runs before job creation, so a
validation failure writes no job row while a validation success writes
exactly one. -/
theorem C4_theorem (collections : List Nat) (p : IngestionJobCreatePayload) :
    ((validateRequest collections p).isOk = true ↔
      (collections.contains p.collection_id = true ∧ p.source_type ≠ [] ∧
       p.format ≠ [] ∧ uriFalsy p.uri = false)) ∧
    ((validateRequest collections p).isOk = false →
      ingestJobRowsCreated collections p = 0) ∧
    ((validateRequest collections p).isOk = true →
      ingestJobRowsCreated collections p = 1) :=
  ⟨validateRequest_isOk_iff collections p,
   (ingestJobRowsCreated_eq collections p).1,
   (ingestJobRowsCreated_eq collections p).2⟩

/-- C4 witness: the amended theorem applied to the concrete rejected
payload: no job row is created. -/
theorem C4_witness :
    ((validateRequest [7] ⟨7, "file".data, "txt".data, none⟩).isOk = false) ∧
    ingestJobRowsCreated [7] ⟨7, "file".data, "txt".data, none⟩ = 0 :=
  ⟨by decide, (C4_theorem [7] ⟨7, "file".data, "txt".data, none⟩).2.1 (by decide)⟩

/-- C5: tenancy isolation — every chunk returned by `search_similar` has
the queried collection_id, for every store, query embedding, distance
function and top_k. -/
theorem C5_theorem (dist : List Rat → List Rat → Rat) (rows : List ChunkRow)
    (cid : Nat) (qvec : List Rat) (topK : Int) :
    ∀ r ∈ searchSimilar dist rows cid qvec topK, r.chunk.collection_id = cid :=
  searchSimilar_tenancy dist rows cid qvec topK

/-- C5 witness: the theorem applied to a concrete one-row store. -/
theorem C5_witness :
    (({ chunk := ⟨1, 1, 3, 0, "a".data, [1]⟩, score := 1 } : ChunkSearchResult) ∈
      searchSimilar (fun _ _ => 0) [⟨1, 1, 3, 0, "a".data, [1]⟩] 3 [1] 5) ∧
    ({ chunk := ⟨1, 1, 3, 0, "a".data, [1]⟩, score := 1 } :
      ChunkSearchResult).chunk.collection_id = 3 := by
  have heq : searchSimilar (fun _ _ => 0) [⟨1, 1, 3, 0, "a".data, [1]⟩] 3 [1] 5 =
      [{ chunk := ⟨1, 1, 3, 0, "a".data, [1]⟩, score := 1 }] := by
    norm_num [searchSimilar, List.mergeSort_singleton]
  have hm : ({ chunk := ⟨1, 1, 3, 0, "a".data, [1]⟩, score := 1 } :
      ChunkSearchResult) ∈
      searchSimilar (fun _ _ => 0) [⟨1, 1, 3, 0, "a".data, [1]⟩] 3 [1] 5 := by
    rw [heq]
    exact List.mem_singleton_self _
  exact ⟨hm, C5_theorem (fun _ _ => 0) [⟨1, 1, 3, 0, "a".data, [1]⟩] 3 [1] 5 _ hm⟩

/-- C6: on empty retrieval, `answer` returns the fixed
"could not find any relevant information" reply with empty citations and
empty context, and the Generator is never invoked (the invocation flag is
false). -/
theorem C6_theorem (results : List ChunkSearchResult) (question : Str)
    (buildPrompt : Str → List Str → Str) (generate : Str → Str)
    (h : results = []) :
    answerFromResults results question buildPrompt generate =
      ({ answer := noInfoAnswer, citations := [], context := [] }, false) := by
  subst h
  rfl

/-- C6 witness: the theorem applied to an empty retrieval result. -/
theorem C6_witness :
    answerFromResults [] "What is India Stack?".data (fun _ _ => [])
        (fun _ => "generated".data) =
      ({ answer := noInfoAnswer, citations := [], context := [] }, false) :=
  C6_theorem [] "What is India Stack?".data (fun _ _ => [])
    (fun _ => "generated".data) rfl

/-- C7 counterexample: the first transition of a job to the terminal status
PARTIAL leaves `completed_at` unset — `"PARTIAL"` is missing from the
`completed_at` condition of `update_status`. -/
theorem C7_counterexample :
    (JobStatus.partialStatus.isTerminal = true) ∧
    updateStatus (π := Nat) 9 (some ⟨.running, 0, none, some 1, none⟩)
        .partialStatus none none =
      .ok ⟨.partialStatus, 0, none, some 1, none⟩ :=
  ⟨by decide, rfl⟩

/-- C7 (amended): `update_status` sets (and on a repeated call resets)
`completed_at` on every transition to COMPLETED, FAILED or CANCELED, and
never on a transition to PARTIAL — so a job whose terminal status is
PARTIAL does not get `completed_at` from that transition. -/
theorem C7_theorem {π : Type} (j : IngestionJobRow π) (now : Nat)
    (p : Option π) (e : Option Str) :
    (updateStatus now (some j) .partialStatus p e).map IngestionJobRow.completed_at
      = .ok j.completed_at ∧
    (updateStatus now (some j) .completed p e).map IngestionJobRow.completed_at
      = .ok (some now) ∧
    (updateStatus now (some j) .failed p e).map IngestionJobRow.completed_at
      = .ok (some now) ∧
    (updateStatus now (some j) .canceled p e).map IngestionJobRow.completed_at
      = .ok (some now) := by
  refine ⟨?_, ?_, ?_, ?_⟩ <;> rw [updateStatus_some] <;> simp [Except.map]

/-- C8: for every valid configuration and input, both chunkers return at
least one entry with 0-based contiguous indices in emission order, a
single `(0, "")` sentinel for empty or whitespace-only input, and
otherwise no empty chunk text. -/
theorem C8_theorem (size ov : Nat) (hs : 0 < size) (_ho : ov < size) (text : Str) :
    (simpleChunk size ov text ≠ [] ∧
     (simpleChunk size ov text).map Prod.fst =
       List.range (simpleChunk size ov text).length ∧
     (strip text = [] → simpleChunk size ov text = [(0, [])]) ∧
     (strip text ≠ [] → ∀ p ∈ simpleChunk size ov text, p.2 ≠ [])) ∧
    (sentenceChunk size ov text ≠ [] ∧
     (sentenceChunk size ov text).map Prod.fst =
       List.range (sentenceChunk size ov text).length ∧
     (strip text = [] → sentenceChunk size ov text = [(0, [])]) ∧
     (strip text ≠ [] → ∀ p ∈ sentenceChunk size ov text, p.2 ≠ [])) := by
  refine ⟨⟨simpleChunk_ne_nil size ov hs text, simpleChunk_map_fst size ov text,
    fun h => ?_, fun h => simpleChunk_text_ne_nil size ov text h⟩,
    ⟨sentenceChunk_ne_nil size ov text, sentenceChunk_map_fst size ov text,
    fun h => ?_, fun h => sentenceChunk_text_ne_nil size ov text h⟩⟩
  · rw [simpleChunk, if_pos h]
  · rw [sentenceChunk, if_pos h]

/-- C8 witness: the theorem applied to the configuration (5, 2) and the
input "Ab. Cd.". -/
theorem C8_witness :
    (0 < 5 ∧ 2 < 5) ∧
    ((simpleChunk 5 2 "Ab. Cd.".data ≠ [] ∧
      (simpleChunk 5 2 "Ab. Cd.".data).map Prod.fst =
        List.range (simpleChunk 5 2 "Ab. Cd.".data).length ∧
      (strip "Ab. Cd.".data = [] → simpleChunk 5 2 "Ab. Cd.".data = [(0, [])]) ∧
      (strip "Ab. Cd.".data ≠ [] →
        ∀ p ∈ simpleChunk 5 2 "Ab. Cd.".data, p.2 ≠ [])) ∧
     (sentenceChunk 5 2 "Ab. Cd.".data ≠ [] ∧
      (sentenceChunk 5 2 "Ab. Cd.".data).map Prod.fst =
        List.range (sentenceChunk 5 2 "Ab. Cd.".data).length ∧
      (strip "Ab. Cd.".data = [] → sentenceChunk 5 2 "Ab. Cd.".data = [(0, [])]) ∧
      (strip "Ab. Cd.".data ≠ [] →
        ∀ p ∈ sentenceChunk 5 2 "Ab. Cd.".data, p.2 ≠ []))) :=
  ⟨⟨by decide, by decide⟩, C8_theorem 5 2 (by decide) (by decide) "Ab. Cd.".data⟩

/-- C9 counterexample: with the valid configuration (5, 0), a single
sentence longer than chunk_size is emitted whole, so the measured length of the emitted chunk exceeds chunk_size. -/
theorem C9_counterexample :
    ((0:Nat) < 5 ∧ (0:Nat) < 5) ∧
    sentenceChunk 5 0 "Abcdefghij".data = [(0, "Abcdefghij".data)] ∧
    ¬ (∀ p ∈ sentenceChunk 5 0 "Abcdefghij".data, p.2.length + 1 ≤ 5) := by
  refine ⟨⟨by decide, by decide⟩, by decide, by decide⟩

/-- C9 (amended): every chunk the sentence-aware chunker emits has
measured length (sum of the sentence lengths plus separators, i.e.
text length + 1) at most chunk_size, provided every split sentence fits
within chunk_size - overlap; a longer sentence (emitted whole, possibly
on top of the overlap carry) can exceed the bound. -/
theorem C9_theorem (size ov : Nat) (hs : 0 < size) (hov : ov < size) (text : Str)
    (hsent : ∀ s ∈ splitIntoSentences (strip text),
      (strip s).length + 1 ≤ size - ov) :
    ∀ p ∈ sentenceChunk size ov text, p.2.length + 1 ≤ size :=
  sentenceChunk_bound size ov hs hov text hsent

/-- C9 witness: the amended theorem applied to the configuration (10, 3)
and the input "Ab. Cd.", whose sentences all fit in 10 - 3. -/
theorem C9_witness :
    (0 < 10 ∧ 3 < 10 ∧
     ∀ s ∈ splitIntoSentences (strip "Ab. Cd.".data),
       (strip s).length + 1 ≤ 10 - 3) ∧
    ∀ p ∈ sentenceChunk 10 3 "Ab. Cd.".data, p.2.length + 1 ≤ 10 :=
  ⟨⟨by decide, by decide, by decide⟩,
   C9_theorem 10 3 (by decide) (by decide) "Ab. Cd.".data (by decide)⟩

/-- C10: a unit with empty text and no extraction error is neither
counted as failed nor contributes chunk rows (its `unitStep` is the
identity), and a source of only such units yields zero chunks, zero
failed pages, and final status COMPLETED. -/
theorem C10_theorem (size ov : Nat) :
    (∀ (pageIdx : Nat) (u : ExtractUnit) (acc : UnitAccum),
       u.text = [] → u.extractionError = false →
       unitStep size ov pageIdx u acc = acc) ∧
    (∀ units : List ExtractUnit,
       (∀ u ∈ units, u.text = [] ∧ u.extractionError = false) →
       (unitLoop size ov units).allChunks = [] ∧
       (unitLoop size ov units).failedPages = [] ∧
       (processWithHandler size ov units).persistedChunks = [] ∧
       ingestFinalStatus size ov units = .completed) := by
  constructor
  · exact fun i u acc h1 h2 => unitStep_empty_unit size ov i u acc h1 h2
  · intro units h
    have hloop := unitLoop_all_empty size ov units h
    refine ⟨by rw [hloop], by rw [hloop], ?_, ?_⟩
    · rw [processWithHandler, hloop]
      simp
    · rw [ingestFinalStatus_eq, hloop]
      rw [if_pos rfl]

/-- C10 witness: the theorem applied to a single empty, error-free
unit. -/
theorem C10_witness :
    (∀ u ∈ [({ text := [], extractionError := false, pageNumber := none } :
        ExtractUnit)], u.text = [] ∧ u.extractionError = false) ∧
    (unitLoop 800 120 [⟨[], false, none⟩]).allChunks = [] ∧
    ingestFinalStatus 800 120 [⟨[], false, none⟩] = .completed := by
  have h : ∀ u ∈ [({ text := [], extractionError := false, pageNumber := none } :
      ExtractUnit)], u.text = [] ∧ u.extractionError = false := by decide
  have h2 := (C10_theorem 800 120).2 [⟨[], false, none⟩] h
  exact ⟨h, h2.1, h2.2.2.2⟩

end BharatRag
